import Mathlib

/-!
Verification development for the B-Roll Library semantic search engine
(`app.py`).  The semantic core — keyword extraction, semantic expansion,
relevance scoring with difflib-style fuzzy matching, and the final stable
relevance sort — is shallowly embedded below.  Text is modelled as lists of
characters (the ASCII fragment of Python `str`); Python floats are modelled
as rationals; Python dicts that are only built once and looked up are
modelled as association lists.
-/

namespace BRoll

/-- Python strings are modelled as lists of characters. -/
abbrev Str := List Char

/-- Model of Python `str.lower` on one character (ASCII range); this is the
same computation as core `Char.toLower`. -/
def lowerChar (c : Char) : Char :=
  if 65 ≤ c.toNat ∧ c.toNat ≤ 90 then Char.ofNat (c.toNat + 32) else c

/-- Model of Python `str.lower`. -/
def lowerStr (s : Str) : Str := s.map lowerChar

/-- A character matched by the regex class `\w` (ASCII fragment:
alphanumerics and underscore). -/
def isWordChar (c : Char) : Bool := c.isAlphanum || c == '_'

/-- Model of the Python substring test `needle in hay`. -/
def substr : Str → Str → Bool
  | needle, [] => needle.isEmpty
  | needle, c :: rest => needle.isPrefixOf (c :: rest) || substr needle rest

/-- Fuel-indexed worker behind `words` (structural recursion on the fuel,
so that the kernel can evaluate it); the fuel always dominates the length
of the remaining input in actual use. -/
def wordsFuel : Nat → Str → List Str
  | 0, _ => []
  | _ + 1, [] => []
  | fuel + 1, c :: cs =>
    if isWordChar c then
      (c :: cs.takeWhile isWordChar) :: wordsFuel fuel (cs.dropWhile isWordChar)
    else
      wordsFuel fuel cs

/-- Model of `re.findall(r'\b\w+\b', s)`: the maximal runs of word
characters of `s`, in order. -/
def words (s : Str) : List Str := wordsFuel s.length s

/-- Model of `' '.join`. -/
def joinSpace : List Str → Str
  | [] => []
  | [t] => t
  | t :: ts => t ++ ' ' :: joinSpace ts

/-- The stop-word set of `SemanticSearchEngine.extract_keywords`. -/
def stop_words : List Str :=
  ["the".data, "a".data, "an".data, "and".data, "or".data, "but".data,
   "in".data, "on".data, "at".data, "to".data, "for".data, "of".data,
   "with".data, "by".data]

/-- Model of `SemanticSearchEngine.extract_keywords`: tokenize the lower-cased query
on word boundaries and drop stop-words and tokens of length `≤ 2`. -/
def extract_keywords (query : Str) : List Str :=
  (words (lowerStr query)).filter
    (fun word => !(stop_words.contains word) && decide (2 < word.length))

/-- The fixed category taxonomy `SemanticSearchEngine.semantic_mappings`. -/
def semantic_mappings : List (Str × List Str) :=
  [("business".data,
    ["corporate".data, "office".data, "meeting".data, "professional".data,
     "work".data, "conference".data, "presentation".data, "team".data,
     "finance".data, "startup".data]),
   ("technology".data,
    ["tech".data, "digital".data, "computer".data, "software".data,
     "AI".data, "coding".data, "programming".data, "innovation".data,
     "gadgets".data, "electronics".data]),
   ("nature".data,
    ["outdoor".data, "forest".data, "trees".data, "mountains".data,
     "water".data, "landscape".data, "wildlife".data, "green".data,
     "natural".data, "environment".data]),
   ("city".data,
    ["urban".data, "buildings".data, "skyline".data, "street".data,
     "traffic".data, "architecture".data, "downtown".data,
     "metropolitan".data, "cityscape".data]),
   ("people".data,
    ["human".data, "person".data, "crowd".data, "family".data,
     "friends".data, "social".data, "community".data, "lifestyle".data,
     "portrait".data]),
   ("food".data,
    ["cooking".data, "restaurant".data, "kitchen".data, "dining".data,
     "meal".data, "culinary".data, "recipe".data, "chef".data,
     "eating".data]),
   ("travel".data,
    ["vacation".data, "tourism".data, "journey".data, "adventure".data,
     "destination".data, "explore".data, "trip".data, "wanderlust".data]),
   ("sports".data,
    ["fitness".data, "exercise".data, "athletic".data, "training".data,
     "competition".data, "gym".data, "workout".data, "activity".data]),
   ("music".data,
    ["sound".data, "audio".data, "concert".data, "performance".data,
     "instruments".data, "rhythm".data, "melody".data, "dance".data]),
   ("art".data,
    ["creative".data, "design".data, "painting".data, "drawing".data,
     "artistic".data, "gallery".data, "visual".data, "aesthetic".data])]

/-- One `self.reverse_mappings[term].append(main_term)` step (creating the
entry when `term` is not yet a key, as `dict` assignment does). -/
def insertRev (term main : Str) : List (Str × List Str) → List (Str × List Str)
  | [] => [(term, [main])]
  | (t, ms) :: rest =>
    if t = term then (t, ms ++ [main]) :: rest
    else (t, ms) :: insertRev term main rest

/-- The derived reverse index `SemanticSearchEngine.reverse_mappings`, built
by iterating the taxonomy in order. -/
def reverse_mappings : List (Str × List Str) :=
  semantic_mappings.foldl
    (fun m p => p.2.foldl (fun m' term => insertRev term p.1 m') m) []

/-- Dict lookup (`k in d` / `d[k]`) on an association list. -/
def dictFind (m : List (Str × List Str)) (k : Str) : Option (List Str) :=
  (m.find? (fun p => p.1 == k)).map (fun p => p.2)

/-- The three keyword buckets produced by `expand_keywords`. -/
structure ExpandedKeywords where
  original : List Str
  semantic : List Str
  related : List Str
deriving DecidableEq

/-- Model of `SemanticSearchEngine.expand_keywords`: for each keyword add its direct
category expansion to `semantic`; if the keyword is a related term, add its
categories to `related` and each such category's term list to `semantic`;
finally deduplicate `semantic` and `related` (Python `list(set(...))`,
modelled by `List.dedup` — the set's iteration order is unspecified). -/
def expand_keywords (keywords : List Str) : ExpandedKeywords :=
  let step := fun (acc : List Str × List Str) (kw : Str) =>
    let sem := match dictFind semantic_mappings kw with
      | some terms => acc.1 ++ terms
      | none => acc.1
    match dictFind reverse_mappings kw with
    | some mains =>
      let sem := mains.foldl (fun s main =>
        match dictFind semantic_mappings main with
        | some terms => s ++ terms
        | none => s) sem
      (sem, acc.2 ++ mains)
    | none => (sem, acc.2)
  let p := keywords.foldl step ([], [])
  { original := keywords, semantic := p.1.dedup, related := p.2.dedup }

/-! ### difflib similarity

Model of `difflib.SequenceMatcher(None, a, b).ratio()` for the no-junk case
(the `isjunk` argument is `None` in the source, and the autojunk popularity
heuristic only engages for sequences of length `≥ 200`, far beyond the single
words compared here; without junk the two junk-extension loops of
`find_longest_match` can never fire, so the search is the plain dynamic
program below with its first-hit tie-breaking). -/

/-- One found matching block: start in `a`, start in `b`, length. -/
structure Block where
  besti : Nat
  bestj : Nat
  bestsize : Nat
deriving DecidableEq

/-- The positions of `c` in `b` lying in `[blo, bhi)`, ascending: the
`b2j` lookup of `find_longest_match` combined with its `j < blo` /
`j >= bhi` window tests. -/
def occIdx (b : Str) (c : Char) (blo bhi : Nat) : List Nat :=
  (List.range b.length).filter
    (fun j => (b.getD j ' ' == c) && decide (blo ≤ j) && decide (j < bhi))

/-- One row (`for j in b2j.get(a[i], nothing)`) of `find_longest_match`:
threads the `j2len` lengths-of-runs map (previous row in, fresh row out)
and the best block so far, updating on `k > bestsize`. -/
def flmRow (b : Str) (blo bhi i : Nat) (ai : Char) (j2len : Nat → Nat)
    (st : Block) : (Nat → Nat) × Block :=
  (occIdx b ai blo bhi).foldl
    (fun acc j =>
      let k := (if j = 0 then 0 else j2len (j - 1)) + 1
      let nj := fun x => if x = j then k else acc.1 x
      let st' := if acc.2.bestsize < k then ⟨i + 1 - k, j + 1 - k, k⟩ else acc.2
      (nj, st'))
    ((fun _ => 0), st)

/-- Model of `SequenceMatcher.find_longest_match` on the window
`a[alo:ahi]`, `b[blo:bhi]` (no junk, see above). -/
def findLongestMatch (a b : Str) (alo ahi blo bhi : Nat) : Block :=
  ((List.range' alo (ahi - alo)).foldl
    (fun acc i => flmRow b blo bhi i (a.getD i ' ') acc.1 acc.2)
    ((fun _ => 0), (⟨alo, blo, 0⟩ : Block))).2

/-- Total size of the matching blocks of `get_matching_blocks` on a window:
recursively split at the longest match.  `fuel` dominates the recursion
depth; every recursive call strictly shrinks the window, so
`a.length + b.length + 1` is always enough. -/
def matchTotalAux (a b : Str) : Nat → Nat → Nat → Nat → Nat → Nat
  | 0, _, _, _, _ => 0
  | fuel + 1, alo, ahi, blo, bhi =>
    let blk := findLongestMatch a b alo ahi blo bhi
    if blk.bestsize = 0 then 0
    else
      blk.bestsize
        + matchTotalAux a b fuel alo blk.besti blo blk.bestj
        + matchTotalAux a b fuel (blk.besti + blk.bestsize) ahi
            (blk.bestj + blk.bestsize) bhi

/-- The number `M` of matching characters underlying `ratio()`. -/
def matchingTotal (a b : Str) : Nat :=
  matchTotalAux a b (a.length + b.length + 1) 0 a.length 0 b.length

/-- Model of the difflib ratio, which `_calculate_ratio` computes as
`2*M / (len(a)+len(b))`, and as `1` on two empty sequences. -/
def similarity (a b : Str) : ℚ :=
  if a.length + b.length = 0 then 1
  else 2 * (matchingTotal a b : ℚ) / ((a.length : ℚ) + (b.length : ℚ))

/-! ### Relevance scorer -/

/-- A candidate item, as far as the scorer reads it: `title` and
`description` may be absent and then read as the empty string by the
scorer, and every other field is
opaque payload the scorer never touches. -/
structure Item where
  title : Option Str
  description : Option Str
  extra : List (Str × Str)
deriving DecidableEq

/-- The scored content: the lower-cased title and description joined by a
single space, absent fields read as the empty string. -/
def contentOf (result : Item) : Str :=
  lowerStr (result.title.getD []) ++ ' ' :: lowerStr (result.description.getD [])

/-- The four score buckets of `calculate_match_score`. -/
structure ScoreBuckets where
  direct : ℚ
  keyword : ℚ
  semantic : ℚ
  fuzzy : ℚ
deriving DecidableEq

/-- The bucket-filling phase of `SemanticSearchEngine.calculate_match_score`
(lines 141–173): direct query substring test, per-token keyword loop,
semantic and related loops, and the fuzzy double loop over
`(query_word, content_word)` pairs. -/
def scoreBuckets (result : Item) (query_keywords : ExpandedKeywords)
    (original_query : Str) : ScoreBuckets :=
  let content := contentOf result
  let directScore : ℚ := if substr (lowerStr original_query) content then 100 else 0
  let keywordScore : ℚ :=
    query_keywords.original.foldl
      (fun acc kw => if substr kw content then acc + 20 else acc) 0
  let semanticScore : ℚ :=
    query_keywords.semantic.foldl
      (fun acc kw => if substr kw content then acc + 10 else acc) 0
  let semanticScore : ℚ :=
    query_keywords.related.foldl
      (fun acc kw => if substr kw content then acc + 15 else acc) semanticScore
  let all_words := words content
  let fuzzyScore : ℚ :=
    query_keywords.original.foldl (fun acc qw =>
      all_words.foldl (fun acc' w =>
        let sim := similarity qw w
        if 4/5 < sim ∧ sim < 1 then acc' + sim * 5 else acc') acc) 0
  { direct := directScore, keyword := keywordScore,
    semantic := semanticScore, fuzzy := fuzzyScore }

/-- The total score: the sum of the four buckets. -/
def total_score (s : ScoreBuckets) : ℚ := s.direct + s.keyword + s.semantic + s.fuzzy

/-- The match-type classification of `calculate_match_score` (lines
179–184): `direct` if the direct bucket is positive, else `keyword` when the
keyword bucket strictly exceeds the semantic bucket, else `semantic`. -/
def match_type_of (s : ScoreBuckets) : Str :=
  if 0 < s.direct then "direct".data
  else if s.semantic < s.keyword then "keyword".data
  else "semantic".data

/-- Model of `SemanticSearchEngine.calculate_match_score`. -/
def calculate_match_score (result : Item) (query_keywords : ExpandedKeywords)
    (original_query : Str) : ℚ × Str :=
  let s := scoreBuckets result query_keywords original_query
  (total_score s, match_type_of s)

/-! ### Relevance sort -/

/-- An item enriched in place with `_relevance_score` and `_match_type`. -/
structure ScoredItem where
  base : Item
  relevance_score : ℚ
  match_type : Str
deriving DecidableEq

/-- The sort tie-break priority of a match type, with default 3 for
unknown types, as the dict lookup with default in the sort key does. -/
def match_type_priority (t : Str) : Nat :=
  if t = "direct".data then 0
  else if t = "keyword".data then 1
  else if t = "semantic".data then 2
  else 3

/-- The comparison induced by the Python sort key: the negated relevance
score paired with the match-type priority, compared lexicographically as
Python tuple comparison does. -/
def sortKeyLE (x y : ScoredItem) : Bool :=
  decide (-x.relevance_score < -y.relevance_score
    ∨ (-x.relevance_score = -y.relevance_score
       ∧ match_type_priority x.match_type ≤ match_type_priority y.match_type))

/-- The in-place Python list sort by key: a stable sort, modelled by the
stable `List.mergeSort`. -/
def sortScored (l : List ScoredItem) : List ScoredItem := l.mergeSort sortKeyLE

/-- Model of `BRollLibrary.sort_results_by_relevance`: score every result against the
expanded keywords of the original query, annotate it, and stably sort. -/
def sort_results_by_relevance (results : List Item) (original_query : Str) :
    List ScoredItem :=
  if results = [] then []
  else
    let keywords := extract_keywords original_query
    let expanded := expand_keywords keywords
    let scored := results.map (fun r =>
      let sm := calculate_match_score r expanded original_query
      { base := r, relevance_score := sm.1, match_type := sm.2 : ScoredItem })
    sortScored scored

/-! ### Spec-side definition and concrete sample inputs -/

/-- The specification's reading of the keyword bucket: 20 points per
DISTINCT token of `expandedKeywords.original` occurring in the content.
This follows the spec's words, to be compared with the source's
per-occurrence loop in `scoreBuckets`. -/
def distinctKeywordScore (kw : ExpandedKeywords) (content : Str) : ℚ :=
  20 * (((kw.original.dedup.filter (fun t => substr t content)).length : ℕ) : ℚ)

/-- Sample item whose content is `"cat "`. -/
def exCatItem : Item := ⟨some "cat".data, none, []⟩

/-- Expanded keywords of the query `"cat cat"`; its `original` bucket is
`["cat", "cat"]`, with a repeated token. -/
def exCatCatKw : ExpandedKeywords := expand_keywords (extract_keywords "cat cat".data)

/-- The scenario query of the spec's worked example. -/
def exForestQuery : Str := "forest".data

/-- The scenario item: no title, description
`"Beautiful mountains and trees landscape"`. -/
def exForestItem : Item :=
  ⟨none, some "Beautiful mountains and trees landscape".data, []⟩

/-- Expanded keywords the pipeline derives for the query `"forest"`. -/
def exForestKw : ExpandedKeywords := expand_keywords (extract_keywords exForestQuery)

/-- Two scored items sharing score and match type (for stability checks). -/
def exScoredA : ScoredItem := ⟨⟨some "alpha".data, none, []⟩, 10, "keyword".data⟩

/-- Second scored item with the same sort key as `exScoredA`. -/
def exScoredB : ScoredItem := ⟨⟨some "beta".data, none, []⟩, 10, "keyword".data⟩

/-- Sample item directly matching the query `"cat"`. -/
def exDirectItem : Item := ⟨some "Cat Video".data, none, []⟩

/-- Arbitrary non-trivial expanded keywords (to check irrelevance of the
other buckets in the direct-match theorem). -/
def exNoiseKw : ExpandedKeywords := ⟨["zzz".data], ["city".data], []⟩

/-- The single scored item produced by sorting `[exCatItem]` for `"cat"`. -/
def exSortedOut : ScoredItem := ⟨exCatItem, 120, "direct".data⟩

/-! ### Helper lemmas -/

theorem lowerChar_lowerChar (c : Char) : lowerChar (lowerChar c) = lowerChar c := by
  by_cases h : 65 ≤ c.toNat ∧ c.toNat ≤ 90
  · obtain ⟨n, hn, h1, h2⟩ : ∃ n, c = Char.ofNat n ∧ 65 ≤ n ∧ n ≤ 90 :=
      ⟨c.toNat, (Char.ofNat_toNat c).symm, h.1, h.2⟩
    subst hn
    interval_cases n <;> decide
  · simp only [lowerChar, if_neg h]

theorem substr_nil (hay : Str) : substr [] hay = true := by
  cases hay <;> rfl

/-- Folding a step that adds `S x` at each element is summation. -/
theorem foldl_eq_add_sum {α : Type} (g : ℚ → α → ℚ) (S : α → ℚ)
    (hg : ∀ a x, g a x = a + S x) :
    ∀ (l : List α) (a : ℚ), l.foldl g a = a + (l.map S).sum := by
  intro l
  induction l with
  | nil => intro a; simp
  | cons x xs ih =>
    intro a
    simp only [List.foldl_cons, List.map_cons, List.sum_cons, hg]
    rw [ih]
    ring

/-- Summing a guarded constant counts the elements passing the guard. -/
theorem sum_ite_const {α : Type} (c : ℚ) (q : α → Bool) :
    ∀ l : List α, (l.map (fun x => if q x then c else 0)).sum
      = c * (((l.filter q).length : ℕ) : ℚ) := by
  intro l
  induction l with
  | nil => simp
  | cons x xs ih =>
    by_cases h : q x = true <;>
      simp only [List.map_cons, List.sum_cons, List.filter_cons, h, if_pos, if_neg,
        Bool.false_eq_true, ite_true, ite_false, List.length_cons, ih] <;>
      push_cast <;> ring

/-- A fold whose step never decreases the accumulator never decreases it. -/
theorem le_foldl_of_step {α : Type} (g : ℚ → α → ℚ) (h : ∀ a x, a ≤ g a x) :
    ∀ (l : List α) (a : ℚ), a ≤ l.foldl g a := by
  intro l
  induction l with
  | nil => intro a; simp
  | cons x xs ih => intro a; exact le_trans (h a x) (ih (g a x))

theorem sortKeyLE_trans (a b c : ScoredItem) :
    sortKeyLE a b → sortKeyLE b c → sortKeyLE a c := by
  intro hab hbc
  simp only [sortKeyLE, decide_eq_true_eq] at hab hbc ⊢
  rcases hab with h | ⟨h, hp⟩ <;> rcases hbc with h' | ⟨h', hp'⟩
  · exact Or.inl (h.trans h')
  · exact Or.inl (h.trans_eq h')
  · exact Or.inl (h.trans_lt h')
  · exact Or.inr ⟨h.trans h', hp.trans hp'⟩

theorem sortKeyLE_total (a b : ScoredItem) : sortKeyLE a b || sortKeyLE b a := by
  simp only [sortKeyLE, Bool.or_eq_true, decide_eq_true_eq]
  rcases lt_trichotomy (-a.relevance_score) (-b.relevance_score) with h | h | h
  · exact Or.inl (Or.inl h)
  · rcases Nat.le_total (match_type_priority a.match_type)
      (match_type_priority b.match_type) with hp | hp
    · exact Or.inl (Or.inr ⟨h, hp⟩)
    · exact Or.inr (Or.inr ⟨h.symm, hp⟩)
  · exact Or.inr (Or.inl h)

/-! ### Tokenizer lemmas -/

theorem wordsFuel_congr :
    ∀ (f1 f2 : Nat) (s : Str), s.length ≤ f1 → s.length ≤ f2 →
      wordsFuel f1 s = wordsFuel f2 s := by
  intro f1
  induction f1 with
  | zero =>
    intro f2 s h1 _
    have hs : s = [] := List.eq_nil_of_length_eq_zero (Nat.le_zero.mp h1)
    subst hs
    cases f2 <;> rfl
  | succ f ih =>
    intro f2 s h1 h2
    cases s with
    | nil => cases f2 <;> rfl
    | cons c cs =>
      cases f2 with
      | zero => simp at h2
      | succ f2' =>
        simp only [List.length_cons, Nat.succ_le_succ_iff] at h1 h2
        rw [wordsFuel, wordsFuel]
        have hd : (cs.dropWhile isWordChar).length ≤ cs.length :=
          (List.dropWhile_sublist _).length_le
        by_cases hw : isWordChar c = true
        · rw [if_pos hw, if_pos hw,
            ih f2' (cs.dropWhile isWordChar) (hd.trans h1) (hd.trans h2)]
        · rw [if_neg hw, if_neg hw, ih f2' cs h1 h2]

theorem words_cons (c : Char) (cs : Str) :
    words (c :: cs)
      = if isWordChar c then
          (c :: cs.takeWhile isWordChar) :: words (cs.dropWhile isWordChar)
        else words cs := by
  show wordsFuel (c :: cs).length (c :: cs) = _
  rw [List.length_cons, wordsFuel]
  by_cases hw : isWordChar c = true
  · rw [if_pos hw, if_pos hw,
      wordsFuel_congr cs.length (cs.dropWhile isWordChar).length
        (cs.dropWhile isWordChar) (List.dropWhile_sublist _).length_le
        (Nat.le_refl _)]
    rfl
  · rw [if_neg hw, if_neg hw]
    rfl

theorem wordsFuel_token_spec :
    ∀ (fuel : Nat) (s : Str) (t : Str), t ∈ wordsFuel fuel s →
      t ≠ [] ∧ (∀ c ∈ t, isWordChar c = true) ∧ (∀ c ∈ t, c ∈ s) := by
  intro fuel
  induction fuel with
  | zero => intro s t ht; simp [wordsFuel] at ht
  | succ f ih =>
    intro s t ht
    cases s with
    | nil => simp [wordsFuel] at ht
    | cons c cs =>
      rw [wordsFuel] at ht
      by_cases hw : isWordChar c = true
      · rw [if_pos hw] at ht
        rcases List.mem_cons.mp ht with h | h
        · subst h
          refine ⟨List.cons_ne_nil _ _, ?_, ?_⟩
          · intro x hx
            rcases List.mem_cons.mp hx with hx | hx
            · subst hx; exact hw
            · exact List.mem_takeWhile_imp hx
          · intro x hx
            rcases List.mem_cons.mp hx with hx | hx
            · subst hx; exact List.mem_cons_self _ _
            · exact List.mem_cons_of_mem _ ((List.takeWhile_sublist _).subset hx)
        · obtain ⟨h1, h2, h3⟩ := ih (cs.dropWhile isWordChar) t h
          exact ⟨h1, h2, fun x hx =>
            List.mem_cons_of_mem _ ((List.dropWhile_sublist _).subset (h3 x hx))⟩
      · rw [if_neg hw] at ht
        obtain ⟨h1, h2, h3⟩ := ih cs t ht
        exact ⟨h1, h2, fun x hx => List.mem_cons_of_mem _ (h3 x hx)⟩

theorem words_token_spec (s : Str) (t : Str) (ht : t ∈ words s) :
    t ≠ [] ∧ (∀ c ∈ t, isWordChar c = true) ∧ (∀ c ∈ t, c ∈ s) :=
  wordsFuel_token_spec s.length s t ht

theorem words_append_run (t r : Str) (ht : t ≠ [])
    (hw : ∀ c ∈ t, isWordChar c = true) :
    words (t ++ r)
      = (t ++ r.takeWhile isWordChar) :: words (r.dropWhile isWordChar) := by
  cases t with
  | nil => exact absurd rfl ht
  | cons c t' =>
    rw [List.cons_append, words_cons,
      if_pos (hw c (List.mem_cons_self _ _)),
      List.takeWhile_append_of_pos (fun a ha => hw a (List.mem_cons_of_mem _ ha)),
      List.dropWhile_append_of_pos (fun a ha => hw a (List.mem_cons_of_mem _ ha)),
      List.cons_append]

theorem words_joinSpace :
    ∀ (ts : List Str), (∀ t ∈ ts, t ≠ [] ∧ ∀ c ∈ t, isWordChar c = true) →
      words (joinSpace ts) = ts := by
  intro ts
  induction ts with
  | nil => intro _; rfl
  | cons t ts ih =>
    intro h
    obtain ⟨ht, hw⟩ := h t (List.mem_cons_self _ _)
    cases ts with
    | nil =>
      show words t = [t]
      have hrun := words_append_run t [] ht hw
      rw [List.append_nil] at hrun
      rw [hrun, List.takeWhile_nil, List.dropWhile_nil, List.append_nil]
      rfl
    | cons t' ts' =>
      show words (t ++ ' ' :: joinSpace (t' :: ts')) = t :: t' :: ts'
      rw [words_append_run t (' ' :: joinSpace (t' :: ts')) ht hw,
        List.takeWhile_cons, List.dropWhile_cons]
      have hsp : isWordChar ' ' = false := by decide
      rw [hsp]
      simp only [Bool.false_eq_true, if_false, List.append_nil]
      rw [words_cons, hsp]
      simp only [Bool.false_eq_true, if_false]
      rw [ih (fun x hx => h x (List.mem_cons_of_mem _ hx))]

theorem lowerStr_fixed :
    ∀ (t : Str), (∀ c ∈ t, lowerChar c = c) → lowerStr t = t := by
  intro t
  induction t with
  | nil => intro _; rfl
  | cons c cs ih =>
    intro h
    show lowerChar c :: lowerStr cs = c :: cs
    rw [h c (List.mem_cons_self _ _),
      ih (fun x hx => h x (List.mem_cons_of_mem _ hx))]

theorem lowerStr_joinSpace_fixed :
    ∀ (ts : List Str), (∀ t ∈ ts, ∀ c ∈ t, lowerChar c = c) →
      lowerStr (joinSpace ts) = joinSpace ts := by
  intro ts
  induction ts with
  | nil => intro _; rfl
  | cons t ts ih =>
    intro h
    have h1 : lowerStr t = t := lowerStr_fixed t (h t (List.mem_cons_self _ _))
    cases ts with
    | nil => exact h1
    | cons t' ts' =>
      have h2 : lowerStr (joinSpace (t' :: ts')) = joinSpace (t' :: ts') :=
        ih (fun x hx => h x (List.mem_cons_of_mem _ hx))
      show lowerStr (t ++ ' ' :: joinSpace (t' :: ts'))
          = t ++ ' ' :: joinSpace (t' :: ts')
      have hsp : lowerChar ' ' = ' ' := by decide
      simp only [lowerStr] at h1 h2 ⊢
      rw [List.map_append, List.map_cons, hsp, h1, h2]

/-! ### Claim theorems -/

/-- C1: in the sorted result, any item `a` before an item `b` has a strictly
greater `relevanceScore`, or an equal score and a match-type priority
(`direct`=0, `keyword`=1, `semantic`=2) less than or equal to `b`'s; and two
items with equal score and equal match-type priority keep their pre-sort
relative order (the sort is stable). -/
theorem sort_results_order_and_stability (l : List ScoredItem) :
    (sortScored l).Pairwise (fun a b =>
        b.relevance_score < a.relevance_score
      ∨ (a.relevance_score = b.relevance_score
         ∧ match_type_priority a.match_type ≤ match_type_priority b.match_type))
    ∧ ∀ a b : ScoredItem,
        a.relevance_score = b.relevance_score →
        match_type_priority a.match_type = match_type_priority b.match_type →
        List.Sublist [a, b] l → List.Sublist [a, b] (sortScored l) := by
  constructor
  · have hs := List.sorted_mergeSort sortKeyLE_trans sortKeyLE_total l
    refine List.Pairwise.imp ?_ hs
    intro a b h
    simp only [sortKeyLE, decide_eq_true_eq] at h
    rcases h with h | ⟨h, hp⟩
    · exact Or.inl (by linarith)
    · exact Or.inr ⟨by linarith, hp⟩
  · intro a b h1 h2 hsub
    refine List.pair_sublist_mergeSort sortKeyLE_trans sortKeyLE_total ?_ hsub
    simp only [sortKeyLE, decide_eq_true_eq]
    exact Or.inr ⟨by rw [h1], le_of_eq (by rw [h2])⟩

/-- Witness for C1: two concrete items with equal score and equal match-type
priority stay in input order. -/
theorem sort_results_order_and_stability_witness :
    List.Sublist [exScoredA, exScoredB] (sortScored [exScoredA, exScoredB]) :=
  (sort_results_order_and_stability [exScoredA, exScoredB]).2 exScoredA exScoredB
    rfl rfl (List.Sublist.refl _)

/-- C2: whenever the lower-cased original query is a substring of the item's
lower-cased title-plus-description content, the direct bucket is set to 100
and the returned match type is `direct`, whatever the keyword buckets are. -/
theorem direct_query_match_forces_direct (result : Item) (kw : ExpandedKeywords)
    (q : Str) (hq : q ≠ [])
    (h : substr (lowerStr q) (contentOf result) = true) :
    (scoreBuckets result kw q).direct = 100
    ∧ (calculate_match_score result kw q).2 = "direct".data := by
  have h100 : (scoreBuckets result kw q).direct
      = (if substr (lowerStr q) (contentOf result) then (100 : ℚ) else 0) := rfl
  rw [h, if_pos rfl] at h100
  refine ⟨h100, ?_⟩
  have h2 : (calculate_match_score result kw q).2
      = match_type_of (scoreBuckets result kw q) := rfl
  rw [h2, match_type_of, if_pos (by rw [h100]; norm_num)]

/-- Witness for C2 at the query `"cat"` and an item titled `"Cat Video"`,
with non-empty other keyword buckets. -/
theorem direct_query_match_forces_direct_witness :
    (scoreBuckets exDirectItem exNoiseKw "cat".data).direct = 100
    ∧ (calculate_match_score exDirectItem exNoiseKw "cat".data).2 = "direct".data :=
  direct_query_match_forces_direct exDirectItem exNoiseKw "cat".data
    (by decide) (by decide)

/-- C3 fails on the code: with the reachable expanded keywords of the query
`"cat cat"` (whose `original` bucket repeats the token `"cat"`), the keyword
bucket is 40 on an item containing `"cat"`, not the 20 the distinct-token
reading predicts. -/
theorem keyword_bucket_distinct_counterexample :
    ¬ ((scoreBuckets exCatItem exCatCatKw "cat cat".data).keyword
        = distinctKeywordScore exCatCatKw (contentOf exCatItem)) := by
  with_unfolding_all decide

/-- C3 amended: the keyword bucket equals 20 times the number of tokens of
`expandedKeywords.original`, counted WITH multiplicity, that occur as
substrings of the content (a token listed twice and matching contributes
40). -/
theorem keyword_bucket_per_occurrence (result : Item) (kw : ExpandedKeywords)
    (q : Str) :
    (scoreBuckets result kw q).keyword
      = 20 * (((kw.original.filter
          (fun t => substr t (contentOf result))).length : ℕ) : ℚ) := by
  have hk : (scoreBuckets result kw q).keyword
      = kw.original.foldl
          (fun acc t => if substr t (contentOf result) then acc + 20 else acc) 0 := rfl
  rw [hk,
    foldl_eq_add_sum _ (fun t => if substr t (contentOf result) then (20 : ℚ) else 0)
      (by intro a x; by_cases hx : substr x (contentOf result) = true <;> simp [hx]),
    sum_ite_const]
  simp

/-- C4: `expand_keywords` returns duplicate-free `semantic` and `related`
buckets, echoes the input sequence unchanged as `original`, and is
deterministic. -/
theorem expand_keywords_dedup_echo_deterministic (keywords : List Str) :
    (expand_keywords keywords).semantic.Nodup
    ∧ (expand_keywords keywords).related.Nodup
    ∧ (expand_keywords keywords).original = keywords
    ∧ ∀ ks : List Str, ks = keywords → expand_keywords ks = expand_keywords keywords :=
  ⟨List.nodup_dedup _, List.nodup_dedup _, rfl, fun ks h => by rw [h]⟩

/-- Witness for C4 at the keyword list `["cat"]`. -/
theorem expand_keywords_dedup_echo_deterministic_witness :
    expand_keywords ["cat".data] = expand_keywords ["cat".data] :=
  (expand_keywords_dedup_echo_deterministic ["cat".data]).2.2.2 ["cat".data] rfl

/-- C6: the fuzzy bucket is the sum, over all pairs of an original query
token and a content word, of `similarity * 5` guarded by
`0.8 < similarity < 1`; and the match-type classification is a function of
the direct, keyword and semantic buckets alone. -/
theorem fuzzy_sum_and_never_classifies (result : Item) (kw : ExpandedKeywords)
    (q : Str) :
    (scoreBuckets result kw q).fuzzy
      = (kw.original.map (fun qw =>
          ((words (contentOf result)).map (fun w =>
            if 4/5 < similarity qw w ∧ similarity qw w < 1
            then similarity qw w * 5 else 0)).sum)).sum
    ∧ ∀ s₁ s₂ : ScoreBuckets, s₁.direct = s₂.direct → s₁.keyword = s₂.keyword →
        s₁.semantic = s₂.semantic → match_type_of s₁ = match_type_of s₂ := by
  constructor
  · have hf : (scoreBuckets result kw q).fuzzy
        = kw.original.foldl (fun acc qw =>
            (words (contentOf result)).foldl (fun acc' w =>
              if 4/5 < similarity qw w ∧ similarity qw w < 1
              then acc' + similarity qw w * 5 else acc') acc) 0 := rfl
    rw [hf,
      foldl_eq_add_sum _
        (fun qw => ((words (contentOf result)).map (fun w =>
          if 4/5 < similarity qw w ∧ similarity qw w < 1
          then similarity qw w * 5 else 0)).sum)
        ?_]
    · rw [zero_add]
    · intro a qw
      rw [foldl_eq_add_sum _
        (fun w => if 4/5 < similarity qw w ∧ similarity qw w < 1
          then similarity qw w * 5 else 0)
        (by
          intro a' w
          by_cases hw : 4/5 < similarity qw w ∧ similarity qw w < 1 <;>
            simp [hw])]
  · intro s₁ s₂ h1 h2 h3
    rw [match_type_of, match_type_of, h1, h2, h3]

/-- Witness for C6: two bucket values differing only in `fuzzy` classify
identically. -/
theorem fuzzy_sum_and_never_classifies_witness :
    match_type_of ⟨0, 5, 3, 1⟩ = match_type_of ⟨0, 5, 3, 99⟩ :=
  (fuzzy_sum_and_never_classifies exCatItem ⟨[], [], []⟩ []).2
    ⟨0, 5, 3, 1⟩ ⟨0, 5, 3, 99⟩ rfl rfl rfl

/-- C8: scoring an item with an absent title and/or description field never
fails (the scorer is total) and returns exactly the result of scoring the
item with those fields set to the empty string. -/
theorem absent_fields_scored_as_empty (t d : Str) (e : List (Str × Str))
    (kw : ExpandedKeywords) (q : Str) :
    calculate_match_score ⟨none, some d, e⟩ kw q
        = calculate_match_score ⟨some [], some d, e⟩ kw q
    ∧ calculate_match_score ⟨some t, none, e⟩ kw q
        = calculate_match_score ⟨some t, some [], e⟩ kw q
    ∧ calculate_match_score ⟨none, none, e⟩ kw q
        = calculate_match_score ⟨some [], some [], e⟩ kw q :=
  ⟨rfl, rfl, rfl⟩

/-- C9: with the empty original query, every item gets a direct bucket of
100, is classified `direct`, and its total score is at least 100, whatever
the keyword buckets are — in particular also an item with empty title and
description. -/
theorem empty_query_everything_direct (result : Item) (kw : ExpandedKeywords) :
    (scoreBuckets result kw []).direct = 100
    ∧ (calculate_match_score result kw []).2 = "direct".data
    ∧ 100 ≤ (calculate_match_score result kw []).1 := by
  have h100 : (scoreBuckets result kw []).direct = 100 := by
    have hd : (scoreBuckets result kw []).direct
        = (if substr (lowerStr []) (contentOf result) then (100 : ℚ) else 0) := rfl
    have hs : substr (lowerStr []) (contentOf result) = true := substr_nil _
    rw [hd, hs, if_pos rfl]
  have hmt : (calculate_match_score result kw []).2 = "direct".data := by
    have h2 : (calculate_match_score result kw []).2
        = match_type_of (scoreBuckets result kw []) := rfl
    rw [h2, match_type_of, if_pos (by rw [h100]; norm_num)]
  refine ⟨h100, hmt, ?_⟩
  have htot : (calculate_match_score result kw []).1
      = (scoreBuckets result kw []).direct + (scoreBuckets result kw []).keyword
        + (scoreBuckets result kw []).semantic + (scoreBuckets result kw []).fuzzy := rfl
  have hkw : (0 : ℚ) ≤ (scoreBuckets result kw []).keyword := by
    have h : (scoreBuckets result kw []).keyword
        = kw.original.foldl
            (fun acc t => if substr t (contentOf result) then acc + 20 else acc) 0 := rfl
    rw [h]
    refine le_foldl_of_step _ ?_ _ _
    intro a x
    by_cases hx : substr x (contentOf result) = true <;> simp [hx]
  have hsem : (0 : ℚ) ≤ (scoreBuckets result kw []).semantic := by
    have h : (scoreBuckets result kw []).semantic
        = kw.related.foldl
            (fun acc t => if substr t (contentOf result) then acc + 15 else acc)
            (kw.semantic.foldl
              (fun acc t => if substr t (contentOf result) then acc + 10 else acc) 0) := rfl
    rw [h]
    refine le_trans (le_trans ?_ (le_foldl_of_step _ ?_ kw.related _)) (le_refl _)
    · refine le_foldl_of_step _ ?_ kw.semantic 0
      intro a x
      by_cases hx : substr x (contentOf result) = true <;> simp [hx]
    · intro a x
      by_cases hx : substr x (contentOf result) = true <;> simp [hx]
  have hfz : (0 : ℚ) ≤ (scoreBuckets result kw []).fuzzy := by
    have h : (scoreBuckets result kw []).fuzzy
        = kw.original.foldl (fun acc qw =>
            (words (contentOf result)).foldl (fun acc' w =>
              if 4/5 < similarity qw w ∧ similarity qw w < 1
              then acc' + similarity qw w * 5 else acc') acc) 0 := rfl
    rw [h]
    refine le_foldl_of_step _ ?_ _ _
    intro a qw
    refine le_foldl_of_step _ ?_ _ _
    intro a' w
    by_cases hw : 4/5 < similarity qw w ∧ similarity qw w < 1
    · rw [if_pos hw]
      nlinarith [hw.1]
    · rw [if_neg hw]
  rw [htot, h100]
  linarith

/-- C10: the sorted output is a permutation of the input items (no item
added, dropped, replaced, or otherwise modified), every output item carries
the `_relevance_score` and `_match_type` the scorer computed for it against
the query's expanded keywords, and the empty input is returned unchanged. -/
theorem sort_results_permutation_and_fields (results : List Item) (q : Str) :
    ((sort_results_by_relevance results q).map ScoredItem.base).Perm results
    ∧ (∀ x ∈ sort_results_by_relevance results q,
        x.relevance_score
          = (calculate_match_score x.base (expand_keywords (extract_keywords q)) q).1
        ∧ x.match_type
          = (calculate_match_score x.base (expand_keywords (extract_keywords q)) q).2)
    ∧ sort_results_by_relevance [] q = [] := by
  refine ⟨?_, ?_, by rw [sort_results_by_relevance, if_pos rfl]⟩
  · by_cases h : results = []
    · subst h
      rw [sort_results_by_relevance, if_pos rfl]
      exact List.Perm.refl _
    · rw [sort_results_by_relevance, if_neg h]
      refine ((List.mergeSort_perm _ _).map _).trans ?_
      rw [List.map_map]
      have hid : ∀ r : Item, (ScoredItem.base ∘ fun r =>
          let sm := calculate_match_score r (expand_keywords (extract_keywords q)) q
          { base := r, relevance_score := sm.1, match_type := sm.2 : ScoredItem }) r
          = r := fun r => rfl
      rw [List.map_congr_left (fun r _ => hid r), List.map_id']
  · intro x hx
    by_cases h : results = []
    · subst h
      rw [sort_results_by_relevance, if_pos rfl] at hx
      simp at hx
    · rw [sort_results_by_relevance, if_neg h] at hx
      rw [sortScored, List.mem_mergeSort, List.mem_map] at hx
      obtain ⟨r, hr, rfl⟩ := hx
      exact ⟨rfl, rfl⟩

/-- Witness for C10: the single output item for input `[exCatItem]` and
query `"cat"` carries exactly the scorer's fields. -/
theorem sort_results_permutation_and_fields_witness :
    exSortedOut.relevance_score
      = (calculate_match_score exSortedOut.base
          (expand_keywords (extract_keywords "cat".data)) "cat".data).1
    ∧ exSortedOut.match_type
      = (calculate_match_score exSortedOut.base
          (expand_keywords (extract_keywords "cat".data)) "cat".data).2 :=
  (sort_results_permutation_and_fields [exCatItem] "cat".data).2.1 exSortedOut
    (by
      rw [sort_results_by_relevance, if_neg (by simp), sortScored,
        List.mem_mergeSort]
      with_unfolding_all decide)

/-- C5: every extracted keyword is outside the stop-word set and longer
than 2 characters; extracting from the space-joined extraction returns the
same sequence (idempotence); and the empty query yields the empty
sequence. -/
theorem extract_keywords_clean_idempotent (query : Str) :
    (∀ t ∈ extract_keywords query, t ∉ stop_words ∧ 2 < t.length)
    ∧ extract_keywords (joinSpace (extract_keywords query))
        = extract_keywords query
    ∧ extract_keywords [] = [] := by
  refine ⟨?_, ?_, rfl⟩
  · intro t ht
    have hp := (List.mem_filter.mp ht).2
    simp only [List.contains, Bool.and_eq_true, Bool.not_eq_true',
      List.elem_eq_mem, decide_eq_false_iff_not, decide_eq_true_eq] at hp
    exact hp
  · have hspec : ∀ t ∈ extract_keywords query,
        t ≠ [] ∧ (∀ c ∈ t, isWordChar c = true) ∧ ∀ c ∈ t, c ∈ lowerStr query :=
      fun t ht => words_token_spec (lowerStr query) t (List.mem_of_mem_filter ht)
    have hfix : ∀ t ∈ extract_keywords query, ∀ c ∈ t, lowerChar c = c := by
      intro t ht c hc
      obtain ⟨c₀, hc₀, rfl⟩ := List.mem_map.mp ((hspec t ht).2.2 c hc)
      exact lowerChar_lowerChar c₀
    have h1 : lowerStr (joinSpace (extract_keywords query))
        = joinSpace (extract_keywords query) :=
      lowerStr_joinSpace_fixed _ hfix
    have h2 : words (joinSpace (extract_keywords query)) = extract_keywords query :=
      words_joinSpace _ (fun t ht => ⟨(hspec t ht).1, (hspec t ht).2.1⟩)
    have hu : extract_keywords (joinSpace (extract_keywords query))
        = (words (lowerStr (joinSpace (extract_keywords query)))).filter
            (fun word => !(stop_words.contains word) && decide (2 < word.length)) := rfl
    rw [hu, h1, h2]
    exact List.filter_eq_self.mpr (fun t ht => (List.mem_filter.mp ht).2)

/-- Witness for C5 at the query `"the cat and dog"`: the extracted token
`"cat"` is not a stop-word and is longer than 2 characters. -/
theorem extract_keywords_clean_idempotent_witness :
    "cat".data ∉ stop_words ∧ 2 < ("cat".data).length :=
  (extract_keywords_clean_idempotent "the cat and dog".data).1 "cat".data
    (by decide)

/-- C7: for the query `"forest"` and an item with no title and description
`"Beautiful mountains and trees landscape"`, the pipeline's expanded
keywords score only through the semantic bucket (direct, keyword and fuzzy
buckets are all zero while the semantic bucket is positive), the match type
is `semantic` — in particular not `direct` — and the total score is
strictly positive. -/
theorem forest_scenario_semantic_only :
    (scoreBuckets exForestItem exForestKw exForestQuery).direct = 0
    ∧ (scoreBuckets exForestItem exForestKw exForestQuery).keyword = 0
    ∧ (scoreBuckets exForestItem exForestKw exForestQuery).fuzzy = 0
    ∧ 0 < (scoreBuckets exForestItem exForestKw exForestQuery).semantic
    ∧ (calculate_match_score exForestItem exForestKw exForestQuery).2
        = "semantic".data
    ∧ (calculate_match_score exForestItem exForestKw exForestQuery).2
        ≠ "direct".data
    ∧ 0 < (calculate_match_score exForestItem exForestKw exForestQuery).1 := by
  with_unfolding_all decide

end BRoll
